import Mathlib

/-!
# Verification of the SEC 13F scraper core logic

Shallow embedding, in Lean 4, of the domain logic of the `apify-actor-secgov`
repository: the time-series delta reconstruction, the per-filing document
resolution and assembly routing, the offline consolidation passes (fragment
reassembly and amendment deduplication), the chunked record writer, the SEC
index-file parser and the holdings extractor.

Conventions of the embedding:
* JavaScript strings are modelled as Lean `String`/`List Char`; a "character"
  stands for one UTF-16 code unit of the engine (the distinction only matters
  for astral-plane characters, which never occur in the inputs treated here).
* JavaScript numbers that carry integral quantities (indices, sizes, reported
  values) are modelled as `Int`/`Nat`; float parsing itself is out of scope.
* Fallible code (`throw`) is modelled with `Except String`/`Option`.
-/

namespace Sec13f

/-! ## Time-series reconstructor (`extractValueDeltaFromFilings`)

The inner per-(fund, security) walk over the sorted global horizon of report
dates, carrying the previously emitted entry. -/

/-- One grouped holding observation for a (fundCik, cusip) pair at one report
date: the reported dollar value and share/principal amount. -/
structure Obs where
  value : Int
  sharesOrPrincipalAmount : Int
  deriving Repr, DecidableEq

/-- One emitted quarterly-position row, mirroring the `deltaData` entries of
`extractValueDeltaFromFilings`. -/
structure DeltaEntry where
  fundCik : String
  cusip : String
  report_date : String
  value : Int
  valueDelta : Int
  sharesOrPrincipalAmount : Int
  sharesOrPrincipalAmountDelta : Int
  deriving Repr, DecidableEq

/-- One step of the horizon walk: given the observation lookup, the previously
emitted entry (if any) and the current report date, produce the entry emitted
at this date, or `none` when the walk emits nothing (already-closed position).
Mirrors the body of the `sortedReportDates.forEach` callback. -/
def deltaStep (reports : String → Option Obs) (fundCik cusip : String)
    (prevEntry : Option DeltaEntry) (reportDate : String) : Option DeltaEntry :=
  match reports reportDate, prevEntry with
  | some report, none =>
      -- First entry that has no previous report to compare against: delta 0.
      some { fundCik, cusip, report_date := reportDate
             value := report.value, valueDelta := 0
             sharesOrPrincipalAmount := report.sharesOrPrincipalAmount
             sharesOrPrincipalAmountDelta := 0 }
  | some report, some prev =>
      -- Subsequent entries: delta against the previous emitted entry.
      some { fundCik, cusip, report_date := reportDate
             value := report.value, valueDelta := report.value - prev.value
             sharesOrPrincipalAmount := report.sharesOrPrincipalAmount
             sharesOrPrincipalAmountDelta :=
               report.sharesOrPrincipalAmount - prev.sharesOrPrincipalAmount }
  | none, none =>
      -- No report and nothing before it: zero-value, zero-delta entry.
      some { fundCik, cusip, report_date := reportDate
             value := 0, valueDelta := 0
             sharesOrPrincipalAmount := 0, sharesOrPrincipalAmountDelta := 0 }
  | none, some prev =>
      if prev.value = 0 then
        -- Previous entry already zero: equity sold earlier, emit nothing.
        none
      else
        -- Position fully exited this quarter.
        some { fundCik, cusip, report_date := reportDate
               value := 0, valueDelta := -1 * prev.value
               sharesOrPrincipalAmount := 0
               sharesOrPrincipalAmountDelta := -1 * prev.sharesOrPrincipalAmount }

/-- The horizon walk for one (fundCik, cusip) group: fold `deltaStep` over the
sorted report dates, threading `prevEntry` exactly as the source does —
`prevEntry` is updated only when an entry is pushed. -/
def valueDeltaEntries (reports : String → Option Obs) (fundCik cusip : String) :
    List String → Option DeltaEntry → List DeltaEntry
  | [], _ => []
  | d :: ds, prevEntry =>
      match deltaStep reports fundCik cusip prevEntry d with
      | none => valueDeltaEntries reports fundCik cusip ds prevEntry
      | some e => e :: valueDeltaEntries reports fundCik cusip ds (some e)

/-- Observation lookup for the C1 scenario: value 100 (10 shares) at Q1 and
Q3, nothing at Q2 and Q4. -/
def c1Reports (d : String) : Option Obs :=
  if d = "Q1" then some ⟨100, 10⟩
  else if d = "Q3" then some ⟨100, 10⟩
  else none

/-- The C1 horizon: the sorted global report-date set. -/
def c1Horizon : List String := ["Q1", "Q2", "Q3", "Q4"]

/-- The full walk output for the C1 scenario. -/
def c1Output : List DeltaEntry :=
  valueDeltaEntries c1Reports "fund" "cusip" c1Horizon none

/-! ## Document resolver and per-filing directory handler
(`parse13FFilingDataUrlsFromDirPage` and `secf13Routes.EDGAR_FILING_DIR`) -/

/-- The SEC base URL prefixed to every href of the directory page. -/
def baseUrl : String := "https://www.sec.gov"

/-- ASCII model of JavaScript `String.prototype.toLowerCase` on one character
(the URLs and markers treated here are ASCII). -/
def jsToLowerChar (c : Char) : Char :=
  if 'A' ≤ c ∧ c ≤ 'Z' then Char.ofNat (c.toNat + 32) else c

/-- Model of `href.toLowerCase().endsWith('.xml')`. -/
def endsWithXml (href : String) : Bool :=
  List.isSuffixOf ['.', 'x', 'm', 'l'] (href.data.map jsToLowerChar)

/-- `parse13FFilingDataUrlsFromDirPage`, over the list of `href` attributes of
the anchors found on the directory listing page: prefix the base URL, keep the
targets ending in `.xml` case-insensitively, and throw `No XML URLs found`
when none remain. -/
def parse13FFilingDataUrlsFromDirPage (hrefs : List String) :
    Except String (List String) :=
  let xmlUrls := (hrefs.map (fun href => baseUrl ++ href)).filter endsWithXml
  if xmlUrls.isEmpty then Except.error "No XML URLs found" else Except.ok xmlUrls

/-- What the `EDGAR_FILING_DIR` handler does with a filing after resolving the
directory page: either persist the accumulated record as-is (the save-early
branch for an empty URL list) or enqueue the first XML URL with the rest as
`remainingXmlUrls`. -/
inductive DirOutcome where
  | pushedData (filing : String)
  | enqueued (filing nextUrl : String) (remainingXmlUrls : List String)
  deriving Repr, DecidableEq

/-- The `EDGAR_FILING_DIR` route handler: parse the XML URLs from the page
body (propagating the thrown error), push the discovery-only record when the
list is empty, otherwise enqueue the first URL. `filing` abbreviates the
accumulated filing record threaded through `userData`. -/
def edgarFilingDirHandler (hrefs : List String) (filing : String) :
    Except String DirOutcome :=
  match parse13FFilingDataUrlsFromDirPage hrefs with
  | Except.error e => Except.error e
  | Except.ok xmlUrls =>
      match xmlUrls with
      | [] => Except.ok (DirOutcome.pushedData filing)
      | nextUrl :: remainingXmlUrls =>
          Except.ok (DirOutcome.enqueued filing nextUrl remainingXmlUrls)

/-! ## Holdings extractor (`extractHoldingsFromInfoTableXml`)

The input is modelled as the list of `infoTable` rows, each row carrying the
text content of its sub-elements (the results of the `el.find(...).text()`
queries). `Char.toUpper`/`Char.toLower` are the ASCII models of the
JavaScript case conversions. -/

/-- Characters removed by JavaScript `String.prototype.trim` (ASCII subset;
the XML text handled here contains no exotic whitespace). -/
def jsIsWhitespace (c : Char) : Bool :=
  c = ' ' || c = '\t' || c = '\n' || c = '\r' || c = Char.ofNat 11 || c = Char.ofNat 12

/-- Model of JavaScript `String.prototype.trim`. -/
def jsTrim (s : String) : String :=
  String.mk (((s.data.dropWhile jsIsWhitespace).reverse.dropWhile jsIsWhitespace).reverse)

/-- Model of `String.prototype.toUpperCase` (ASCII). -/
def jsToUpper (s : String) : String :=
  String.mk (s.data.map Char.toUpper)

/-- Model of `String.prototype.toLowerCase` (ASCII). -/
def jsToLower (s : String) : String :=
  String.mk (s.data.map Char.toLower)

/-- Model of `String.prototype.padStart(n, c)`: left-pad with `c` up to
length `n`; a longer string is returned unchanged. -/
def jsPadStart (c : Char) (n : Nat) (s : String) : String :=
  String.mk (List.replicate (n - s.data.length) c ++ s.data)

/-- One `infoTable` row of a holdings-table document: the text content of
each queried sub-element. -/
structure InfoTableRow where
  cusip : String
  nameOfIssuer : String
  titleOfClass : String
  value : String
  sshPrnamt : String
  sshPrnamtType : String
  putCall : String
  investmentDiscretion : String
  otherManager : String
  votingAuthoritySole : String
  votingAuthorityShared : String
  votingAuthorityNone : String
  deriving Repr, DecidableEq

/-- One extracted Holding. `value` keeps the trimmed raw text (the source
applies `parseFloat`, whose floating-point result is outside this
development's scope and irrelevant to the claims treated here). -/
structure Holding where
  cusip : String
  issuerName : String
  classTitle : String
  value : String
  sharesOrPrincipalAmount : String
  sharesOrPrincipalAmountType : String
  optionType : String
  investmentDiscretion : String
  otherManager : String
  votingAuthoritySole : String
  votingAuthorityShared : String
  votingAuthorityNone : String
  deriving Repr, DecidableEq

/-- Extraction of a single holdings row, mirroring the object literal built
for each `infoTable` element. -/
def extractHolding (row : InfoTableRow) : Holding :=
  { cusip := jsPadStart '0' 9 (jsToUpper (jsTrim row.cusip))
    issuerName := jsTrim row.nameOfIssuer
    classTitle := jsTrim row.titleOfClass
    value := jsTrim row.value
    sharesOrPrincipalAmount := jsTrim row.sshPrnamt
    sharesOrPrincipalAmountType := jsToLower (jsTrim row.sshPrnamtType)
    optionType := jsToLower (jsTrim row.putCall)
    investmentDiscretion := jsToLower (jsTrim row.investmentDiscretion)
    otherManager := jsTrim row.otherManager
    votingAuthoritySole := jsTrim row.votingAuthoritySole
    votingAuthorityShared := jsTrim row.votingAuthorityShared
    votingAuthorityNone := jsTrim row.votingAuthorityNone }

/-- `extractHoldingsFromInfoTableXml`: map the row extraction over every
`infoTable` row of the document. -/
def extractHoldingsFromInfoTableXml (rows : List InfoTableRow) : List Holding :=
  rows.map extractHolding

/-! ## Chunked record writer (`EDGAR_FILING_XML_FILE` save branch) and
fragment reassembly (`mergePartialFiles`)

The serialized record is a `List Char` (one element per UTF-16 code unit of
the engine). Serialized envelope lengths are computed with an explicit model
of `JSON.stringify` escaping; indices are `Int` as in the source loop, and
the unbounded `while` is given explicit fuel. -/

/-- One stored fragment: `{ _multipartId, _partIndex, _partData }`. -/
structure ChunkPart where
  multipartId : List Char
  partIndex : Nat
  partData : List Char
  deriving Repr, DecidableEq

/-- Number of UTF-16 code units `JSON.stringify` emits for one character of
a string: 2 for the short escapes (quote, backslash, \b \t \n \f \r), 6 for
the remaining control characters (`\u00XX`), 2 for an astral-plane character
(two unescaped code units), 1 otherwise. -/
def jsonCharCost (c : Char) : Nat :=
  if c = '"' ∨ c = '\\' then 2
  else if c.toNat < 32 then
    (if c = Char.ofNat 8 ∨ c = '\t' ∨ c = '\n' ∨ c = Char.ofNat 12 ∨ c = '\r' then 2 else 6)
  else if 65536 ≤ c.toNat then 2
  else 1

/-- Length of the JSON string literal for `s` (both quotes included). -/
def jsonStrLen (s : List Char) : Nat := 2 + (s.map jsonCharCost).sum

/-- Fuelled decimal digit count (structural so it evaluates in the kernel). -/
def decLenAux : Nat → Nat → Nat
  | 0, _ => 1
  | fuel + 1, n => if n < 10 then 1 else decLenAux fuel (n / 10) + 1

/-- Number of decimal digits of `n` (the length of `` `${n}` ``). -/
def decLen (n : Nat) : Nat := decLenAux n n

/-- Length of `JSON.stringify({_multipartId: mid, _partIndex: partIndex,
_partData: partData})`: the punctuation and key literals contribute
16 + 14 + 13 + 1 code units. -/
def envLen (mid : List Char) (partIndex : Nat) (partData : List Char) : Nat :=
  16 + jsonStrLen mid + 14 + decLen partIndex + 13 + jsonStrLen partData + 1

/-- Index clamping of `String.prototype.slice`: negative indices count from
the end, others are capped at the length. -/
def jsSliceIdx (len : Nat) (i : Int) : Nat :=
  if i < 0 then ((len : Int) + i).toNat else min i.toNat len

/-- `String.prototype.slice(start, stop)`. -/
def jsSlice (l : List Char) (start stop : Int) : List Char :=
  let a := jsSliceIdx l.length start
  let b := jsSliceIdx l.length stop
  (l.drop a).take (b - a)

/-- The chunk-splitting `while (contentIndex < entryStr.length)` loop of the
`EDGAR_FILING_XML_FILE` handler. `partData` is
`entryStr.slice(contentIndex, contentIndex + actualLimit)`; a fragment whose
serialized envelope exceeds `origLimit` shrinks `actualLimit` by `decStep`
(1,000,000 in the source) and retries; otherwise it is emitted and the loop
advances. Each iteration consumes one unit of fuel; `none` means the fuel ran
out before the loop exited. -/
def splitLoop (mid : List Char) (origLimit decStep : Int) (entryStr : List Char) :
    Nat → Int → Int → Nat → Option (List ChunkPart)
  | 0, _, _, _ => none
  | fuel + 1, contentIndex, actualLimit, partIndex =>
      if contentIndex < (entryStr.length : Int) then
        if (envLen mid partIndex
              (jsSlice entryStr contentIndex (contentIndex + actualLimit)) : Int) >
            origLimit then
          splitLoop mid origLimit decStep entryStr fuel contentIndex
            (actualLimit - decStep) partIndex
        else
          match splitLoop mid origLimit decStep entryStr fuel
              (contentIndex + actualLimit) actualLimit (partIndex + 1) with
          | none => none
          | some rest =>
              some (⟨mid, partIndex,
                jsSlice entryStr contentIndex (contentIndex + actualLimit)⟩ :: rest)
      else some []

/-- The whole split of one oversized serialized record: the loop started at
`contentIndex = 0`, `actualLimit = origLimit`, `partIndex = 0`. -/
def splitEntry (mid : List Char) (origLimit decStep : Int) (fuel : Nat)
    (entryStr : List Char) : Option (List ChunkPart) :=
  splitLoop mid origLimit decStep entryStr fuel 0 origLimit 0

/-- Insert a fragment into a list sorted by `partIndex` (the three-way
`a.partIndex > b.partIndex ? 1 : a.partIndex < b.partIndex ? -1 : 0`
comparator of `mergePartialFiles`). -/
def insertPartByIndex (p : ChunkPart) : List ChunkPart → List ChunkPart
  | [] => [p]
  | q :: rest =>
      if p.partIndex < q.partIndex then p :: q :: rest
      else q :: insertPartByIndex p rest

/-- Sort the fragments of one correlation id by sequence index ascending. -/
def sortPartsByIndex (l : List ChunkPart) : List ChunkPart :=
  l.foldl (fun acc p => insertPartByIndex p acc) []

/-- `mergePartialFiles` reassembly for one correlation group: sort by
`partIndex` ascending and concatenate the `_partData` payloads. -/
def reassembleParts (parts : List ChunkPart) : List Char :=
  ((sortPartsByIndex parts).map (fun p => p.partData)).flatten

/-- Concrete 120-character record for the C5 witness. -/
def c5Str : List Char := List.replicate 120 'a'

/-- The fragments the splitter produces for `c5Str` with ceiling 100 and
shrink step 3. -/
def c5Parts : List ChunkPart := (splitEntry ['m'] 100 3 200 c5Str).getD []

/-! ## Consolidation batch scans (`mergePartialFiles` and
`mergeAmendmentFiles`, collection phase)

Each persisted dataset item is modelled by what the scans inspect: the raw
substring markers and the outcome of `JSON.parse`. `Except.error` models a
`throw` that aborts the whole pass. -/

/-- The JSON fields of a persisted record that the scans read; `none` models
a missing `_multipartId` or a non-numeric `_partIndex`. -/
structure FileJson where
  multipartId : Option String
  partIndex : Option Int
  file_number : String
  amendment_type : String
  externalId : String
  report_date : String
  directoryUrl : String
  deriving Repr, DecidableEq

/-- One dataset file as the scans see it: the substring checks on the raw
content and the result of `safeJsonParse` (`none` when `JSON.parse` threw). -/
structure DatasetFile where
  hasMultipartMarker : Bool
  hasExhibitMarker : Bool
  parsed : Option FileJson
  deriving Repr, DecidableEq

/-- The fragment-collection loop of `mergePartialFiles` (step 2.1): skip
files without the `_multipartId` marker; for marked files call `loadJson`
with no `ignoreJsonError` option, which re-throws any parse error; then
throw on a falsy correlation id or invalid sequence index; otherwise collect
`(filepath, multipartId, partIndex)` and continue. -/
def mergePartialFilesScan :
    List (String × DatasetFile) → Except String (List (String × String × Int))
  | [] => Except.ok []
  | (filepath, file) :: rest =>
      if !file.hasMultipartMarker then mergePartialFilesScan rest
      else
        match file.parsed with
        | none => Except.error ("JSON parse failure in " ++ filepath)
        | some data =>
            match data.multipartId with
            | none => Except.error ("Invalid value for multipartId in " ++ filepath)
            | some mid =>
                if mid = "" then
                  Except.error ("Invalid value for multipartId in " ++ filepath)
                else
                  match data.partIndex with
                  | none => Except.error ("Invalid value for partIndex in " ++ filepath)
                  | some idx =>
                      if idx < 0 then
                        Except.error ("Invalid value for partIndex in " ++ filepath)
                      else
                        match mergePartialFilesScan rest with
                        | Except.error e => Except.error e
                        | Except.ok acc => Except.ok ((filepath, mid, idx) :: acc)

/-- The amendment-collection loop of `mergeAmendmentFiles` (step 2.1): throw
the filepath itself on any file containing an exhibit marker; call `loadJson`
with the caller's `ignoreJsonError` option — when set, a parse failure is
logged and the loop continues, otherwise it aborts; collect the parsed
records in order. -/
def mergeAmendmentScan (ignoreJsonError : Bool) :
    List (String × DatasetFile) → Except String (List (String × FileJson))
  | [] => Except.ok []
  | (filepath, file) :: rest =>
      if file.hasExhibitMarker then Except.error filepath
      else
        match file.parsed with
        | none =>
            if ignoreJsonError then mergeAmendmentScan ignoreJsonError rest
            else Except.error ("JSON parse failure in " ++ filepath)
        | some data =>
            match mergeAmendmentScan ignoreJsonError rest with
            | Except.error e => Except.error e
            | Except.ok acc => Except.ok ((filepath, data) :: acc)

/-- A well-formed fragment record for the C7 counterexample. -/
def c7GoodJson : FileJson :=
  { multipartId := some "m-1", partIndex := some 0, file_number := "028-1"
    amendment_type := "", externalId := "e1", report_date := "2020-03-31"
    directoryUrl := "u" }

/-- A fragment-marked dataset file whose JSON fails to parse. -/
def c7BadFile : DatasetFile :=
  { hasMultipartMarker := true, hasExhibitMarker := false, parsed := none }

/-- A fragment-marked dataset file that parses fine. -/
def c7GoodFile : DatasetFile :=
  { hasMultipartMarker := true, hasExhibitMarker := false
    parsed := some c7GoodJson }

/-! ## SEC index-file parser (`parseSECIndexFile`) -/

/-- JavaScript `String.prototype.split` with a single-character separator:
`'a::b'.split(':') = ['a','','b']` and `''.split(':') = ['']`. -/
def jsSplitChars (sep : Char) : List Char → List (List Char)
  | [] => [[]]
  | c :: cs =>
      let rest := jsSplitChars sep cs
      if c = sep then [] :: rest
      else
        match rest with
        | [] => [[c]]
        | seg :: segs => (c :: seg) :: segs

/-- `List Char` version of `jsTrim`. -/
def jsTrimChars (l : List Char) : List Char :=
  ((l.dropWhile jsIsWhitespace).reverse.dropWhile jsIsWhitespace).reverse

/-- The per-line `replace(/[^\x20-\x7E]+/g, '')`: keep printable ASCII. -/
def stripNonPrintable (l : List Char) : List Char :=
  l.filter (fun c => decide (32 ≤ c.toNat) && decide (c.toNat ≤ 126))

/-- JavaScript `Array.prototype.join` with a separator. -/
def jsJoin (sep : String) : List String → String
  | [] => ""
  | [s] => s
  | s :: rest => s ++ sep ++ jsJoin sep rest

/-- JavaScript object property assignment over an association list: overwrite
the existing key or append a new one. -/
def objSet (m : List (String × String)) (key value : String) : List (String × String) :=
  if m.any (fun p => p.1 = key) then
    m.map (fun p => if p.1 = key then (key, value) else p)
  else m ++ [(key, value)]

/-- Mutable state of the `content.split('\n').forEach` loop of
`parseSECIndexFile`. Data rows are maps from column name to the positional
cell, `none` standing for JavaScript `undefined` on short rows. -/
structure IndexFileState where
  meta : List (String × String)
  entries : List (List (String × Option String))
  colNames : List String
  isParsingMeta : Bool
  deriving Repr, DecidableEq

/-- A data row: fold the column names over the positional parts, later
duplicate column names overwriting earlier ones as in the source's spread
accumulation. -/
def buildIndexRow (colNames : List String) (parts : List String) :
    List (String × Option String) :=
  (colNames.enum).foldl
    (fun agg p =>
      let repl := (p.2, parts.get? p.1)
      if agg.any (fun q => q.1 = p.2) then
        agg.map (fun q => if q.1 = p.2 then repl else q)
      else agg ++ [repl])
    []

/-- One iteration of the `forEach` callback of `parseSECIndexFile`. -/
def parseSECIndexFileLine (delim : Char) (st : IndexFileState) (rawLine : List Char) :
    IndexFileState :=
  let line := jsTrimChars (stripNonPrintable rawLine)
  if line.isEmpty then
    if st.isParsingMeta then { st with isParsingMeta := false } else st
  else if st.isParsingMeta then
    -- const [rawKey, ...values] = line.split(':', 1)
    let firstParts := (jsSplitChars ':' line).take 1
    let rawKey := firstParts.headD []
    let values := firstParts.tail
    let key := String.mk (jsTrimChars rawKey)
    let value := jsTrim (jsJoin ":" (values.map String.mk))
    { st with meta := objSet st.meta key value }
  else
    let parts := jsSplitChars delim line
    if parts.isEmpty then st
    else if st.colNames.isEmpty then { st with colNames := parts.map String.mk }
    else { st with entries := st.entries ++ [buildIndexRow st.colNames (parts.map String.mk)] }

/-- `parseSECIndexFile` with the default `|` delimiter: split the content on
newlines and fold the line handler over an initially meta-parsing state. -/
def parseSECIndexFile (content : String) : IndexFileState :=
  (jsSplitChars '\n' content.data).foldl (parseSECIndexFileLine '|')
    { meta := [], entries := [], colNames := [], isParsingMeta := true }

/-! ## Amendment deduplication (`mergeAmendmentFiles`)

A group is the set of parseable records sharing one filer file number. The
source sorts the group with the comparator over the concatenated string
`` `${report_date}_${externalId}` ``, pops the last element as the canonical
record, attaches the rest as `previousVersions`, and deletes them. -/

/-- The JSON fields of one persisted filing record that the amendment pass
reads. An empty `amendment_type` models a falsy (absent) value. -/
structure FilingRec where
  externalId : String
  report_date : String
  directoryUrl : String
  file_number : String
  amendment_type : String
  deriving Repr, DecidableEq

/-- One `previousVersions` entry: external id, report date and directory URL
only. -/
structure PrevVersion where
  externalId : String
  report_date : String
  directoryUrl : String
  deriving Repr, DecidableEq

/-- The canonical record after the merge, with its superseded predecessors
attached. -/
structure MergedFiling where
  base : FilingRec
  previousVersions : List PrevVersion
  deriving Repr, DecidableEq

/-- JavaScript string comparison `a < b`: lexicographic over the code units.
Written over `List Char` so that it evaluates inside the kernel. -/
def jsStrLtChars : List Char → List Char → Bool
  | [], [] => false
  | [], _ :: _ => true
  | _ :: _, [] => false
  | a :: as, b :: bs =>
      if a.toNat < b.toNat then true
      else if b.toNat < a.toNat then false
      else jsStrLtChars as bs

/-- JavaScript `a < b` on strings. -/
def jsStrLt (a b : String) : Bool := jsStrLtChars a.data b.data

/-- The sort key `` `${a.data.report_date}_${a.data.externalId}` `` of the
amendment comparator. -/
def amendmentSortKey (r : FilingRec) : String :=
  r.report_date ++ "_" ++ r.externalId

/-- Insert a record into a key-sorted list: before the first record of
strictly greater key, hence after all records of smaller or equal key (the
stable position given the source's three-way comparator). -/
def insertByKey (r : FilingRec) : List FilingRec → List FilingRec
  | [] => [r]
  | s :: rest =>
      if jsStrLt (amendmentSortKey r) (amendmentSortKey s) then r :: s :: rest
      else s :: insertByKey r rest

/-- Stable ascending sort by `amendmentSortKey` (model of the
`filings.sort(...)` call). -/
def sortByAmendmentKey (g : List FilingRec) : List FilingRec :=
  g.foldl (fun acc r => insertByKey r acc) []

/-- The non-strict order induced by the comparator key: `r` sorts no later
than `s`. -/
def keyLE (r s : FilingRec) : Prop :=
  jsStrLt (amendmentSortKey s) (amendmentSortKey r) = false

/-- The amendment merge for one filer-file-number group: processed only when
some record declares an amendment type (the group was collected into
`amendedFilings`) and the group has at least two versions. Returns the merged
canonical record and the list of deleted (superseded) records. -/
def processAmendmentGroup (g : List FilingRec) : Option (MergedFiling × List FilingRec) :=
  if !(g.any (fun r => r.amendment_type != "")) then none
  else if g.length < 2 then none
  else
    let sorted := sortByAmendmentKey g
    match sorted.getLast? with
    | none => none
    | some canonical =>
        let olds := sorted.dropLast
        some ({ base := canonical
                previousVersions :=
                  olds.map (fun f => ⟨f.externalId, f.report_date, f.directoryUrl⟩) },
              olds)

/-- The strict ordering on the PAIR (report date, external id) that the spec
sentence describes — stated from the spec's words, to be compared against the
source's concatenated-string comparator. -/
def specPairLT (r s : FilingRec) : Prop :=
  jsStrLt r.report_date s.report_date = true ∨
    (r.report_date = s.report_date ∧ jsStrLt r.externalId s.externalId = true)

/-- First record of the C4 counterexample group. -/
def c4RecA : FilingRec :=
  { externalId := "b", report_date := "2020-11", directoryUrl := "u1"
    file_number := "028-1", amendment_type := "restatement" }

/-- Second record of the C4 counterexample group: a strictly later report
date under the pair order, but a smaller concatenated key because `_` (0x5F)
compares above `X` (0x58). -/
def c4RecB : FilingRec :=
  { externalId := "a", report_date := "2020-11X", directoryUrl := "u2"
    file_number := "028-1", amendment_type := "restatement" }

/-- A holdings row whose CUSIP text has 10 characters. -/
def c9LongRow : InfoTableRow :=
  { cusip := "ab12345678", nameOfIssuer := "ACME", titleOfClass := "COM"
    value := "5", sshPrnamt := "3", sshPrnamtType := "SH", putCall := ""
    investmentDiscretion := "SOLE", otherManager := ""
    votingAuthoritySole := "3", votingAuthorityShared := "0"
    votingAuthorityNone := "0" }

end Sec13f

namespace Sec13f

/-! ## Claim theorems: C1, C2, C3 -/

/-- C1 counterexample: for the group observed only at Q1 = 100 and Q3 = 100
over the horizon [Q1, Q2, Q3, Q4], the reconstructor does NOT emit the claimed
sequence `[(Q1,100,+100), (Q2,0,-100), (Q3,100,+100), (Q4,0,-100)]`: the first
entry's delta is 0, not +100. -/
theorem c1_claimed_sequence_refuted :
    ¬ (c1Output.map (fun e => (e.report_date, e.value, e.valueDelta)) =
      [("Q1", 100, 100), ("Q2", 0, -100), ("Q3", 100, 100), ("Q4", 0, -100)]) := by
  decide

/-- C1 (amended): the reconstructor emits exactly four entries
`[(Q1,100,Δ0), (Q2,0,Δ-100), (Q3,100,Δ+100), (Q4,0,Δ-100)]` — the first-ever
sighting carries delta 0 — and nothing for any later horizon date. -/
theorem c1_amended_sequence :
    c1Output.map (fun e => (e.report_date, e.value, e.valueDelta,
      e.sharesOrPrincipalAmountDelta)) =
    [("Q1", 100, 0, 0), ("Q2", 0, -100, -10),
     ("Q3", 100, 100, 10), ("Q4", 0, -100, -10)] := by
  decide

/-- C2: when the walk reaches a horizon date carrying an observation while no
entry has yet been emitted for the group (the threaded `prevEntry` is still
`none`), the emitted entry carries the observed value and share amount with
both deltas equal to 0. -/
theorem c2_first_sighting_zero_delta (reports : String → Option Obs)
    (fundCik cusip d : String) (ds : List String) (r : Obs)
    (hobs : reports d = some r) :
    ∃ e rest, valueDeltaEntries reports fundCik cusip (d :: ds) none = e :: rest ∧
      e.report_date = d ∧ e.value = r.value ∧ e.valueDelta = 0 ∧
      e.sharesOrPrincipalAmount = r.sharesOrPrincipalAmount ∧
      e.sharesOrPrincipalAmountDelta = 0 := by
  simp only [valueDeltaEntries, deltaStep, hobs]
  exact ⟨_, _, rfl, rfl, rfl, rfl, rfl, rfl⟩

/-- C2 witness: the theorem applied to the concrete C1 scenario at date Q1. -/
theorem c2_first_sighting_zero_delta_witness :
    c1Reports "Q1" = some ⟨100, 10⟩ ∧
    ∃ e rest,
      valueDeltaEntries c1Reports "fund" "cusip" ("Q1" :: ["Q2", "Q3", "Q4"]) none =
        e :: rest ∧
      e.report_date = "Q1" ∧ e.value = (100 : Int) ∧ e.valueDelta = 0 ∧
      e.sharesOrPrincipalAmount = (10 : Int) ∧ e.sharesOrPrincipalAmountDelta = 0 :=
  ⟨by decide,
   c2_first_sighting_zero_delta c1Reports "fund" "cusip" "Q1" ["Q2", "Q3", "Q4"]
     ⟨100, 10⟩ (by decide)⟩

/-- C3: a directory page with zero `.xml` hyperlinks does not produce a
discovery-only record — the handler propagates the thrown
`No XML URLs found` error, so the save-early branch that would persist the
accumulated fields is unreachable. -/
theorem c3_no_xml_links_throws :
    edgarFilingDirHandler ["/Archives/edgar/data/1/0001-index.htm",
        "/Archives/edgar/data/1/0001.txt"] "filing" =
      Except.error "No XML URLs found" := by
  rfl

/-! ## Claim theorems: C8, C9 -/

/-- C8: for preamble lines of the form `key: value`, the parser stores the
trimmed key but an EMPTY value, never the text after the colon:
`line.split(':', 1)` truncates the split array to its first element, so the
rest `values` is always empty and `values.join(':').trim()` is `''`. The
claimed values `Master Index of EDGAR` and `March 31, 2024` are lost. -/
theorem c8_meta_values_lost :
    (parseSECIndexFile "Description: Master Index of EDGAR\nLast Data Received: March 31, 2024\n\nCIK|Company Name\n--------\n1000045|NICHOLAS FINANCIAL INC").meta =
      [("Description", ""), ("Last Data Received", "")] ∧
    ¬ ((parseSECIndexFile "Description: Master Index of EDGAR\nLast Data Received: March 31, 2024\n\nCIK|Company Name\n--------\n1000045|NICHOLAS FINANCIAL INC").meta =
      [("Description", "Master Index of EDGAR"), ("Last Data Received", "March 31, 2024")]) := by
  constructor
  · decide
  · decide

/-- `Char.ofNat` of a valid code point keeps its value. -/
theorem charToNat_ofNat_valid (n : Nat) (h : n.isValidChar) :
    (Char.ofNat n).toNat = n := by
  rw [Char.ofNat, dif_pos h]; rfl

/-- After the ASCII upper-casing, no character lies in the range a–z. -/
theorem toUpper_not_lower (c : Char) : ¬('a' ≤ c.toUpper ∧ c.toUpper ≤ 'z') := by
  rw [Char.toUpper]
  split
  case isTrue h =>
    rintro ⟨h1, h2⟩
    have hv : (c.toNat - 32).isValidChar := Or.inl (by omega)
    have e := charToNat_ofNat_valid (c.toNat - 32) hv
    have g1 : ('a').toNat ≤ (Char.ofNat (c.toNat - 32)).toNat := h1
    have g2 : (Char.ofNat (c.toNat - 32)).toNat ≤ ('z').toNat := h2
    rw [e] at g1 g2
    have : ('a').toNat = 97 := rfl
    omega
  case isFalse h =>
    rintro ⟨h1, h2⟩
    have g1 : ('a').toNat ≤ c.toNat := h1
    have g2 : c.toNat ≤ ('z').toNat := h2
    exact h ⟨g1, g2⟩

/-- C9 counterexample: a holdings row whose source CUSIP text has 10
characters yields a Holding whose `cusip` has length 10, not 9 —
`padStart(9, '0')` pads short identifiers but never truncates long ones. -/
theorem c9_cusip_length_nine_refuted :
    ¬ (∀ h ∈ extractHoldingsFromInfoTableXml [c9LongRow], h.cusip.length = 9) := by
  decide

/-- C9 (amended): every emitted CUSIP has length `max 9 (trimmed source
length)` — exactly 9 whenever the trimmed source identifier has at most 9
characters (zero-left-padded) — and contains no lower-case letter. -/
theorem c9_amended_cusip_shape (rows : List InfoTableRow) (hd : Holding)
    (hmem : hd ∈ extractHoldingsFromInfoTableXml rows) :
    (∃ row ∈ rows, hd = extractHolding row ∧
      hd.cusip.length = max 9 (jsTrim row.cusip).length) ∧
    ∀ c ∈ hd.cusip.data, ¬('a' ≤ c ∧ c ≤ 'z') := by
  obtain ⟨row, hrow, hext⟩ := List.mem_map.mp hmem
  constructor
  · refine ⟨row, hrow, hext.symm, ?_⟩
    subst hext
    show (jsPadStart '0' 9 (jsToUpper (jsTrim row.cusip))).length = _
    simp only [jsPadStart, jsToUpper, String.length]
    simp [List.length_replicate]
    omega
  · intro c hc
    subst hext
    have : c ∈ List.replicate (9 - (jsToUpper (jsTrim row.cusip)).data.length) '0' ++
        (jsToUpper (jsTrim row.cusip)).data := hc
    rcases List.mem_append.mp this with hpad | hup
    · have : c = '0' := List.eq_of_mem_replicate hpad
      subst this
      decide
    · simp only [jsToUpper] at hup
      obtain ⟨c₀, _, hc₀⟩ := List.mem_map.mp hup
      subst hc₀
      exact toUpper_not_lower c₀

/-! ## Claim theorems: C4 (with supporting order/sort lemmas) -/

/-- Characters with equal code points are equal. -/
theorem char_eq_of_toNat_eq {a b : Char} (h : a.toNat = b.toNat) : a = b := by
  apply Char.ext
  have h2 : a.val.toNat = b.val.toNat := h
  exact UInt32.toNat.inj h2

/-- Head-unfolding of the code-unit comparison. -/
theorem jsStrLtChars_cons_iff (a b : Char) (as bs : List Char) :
    jsStrLtChars (a :: as) (b :: bs) = true ↔
      (a.toNat < b.toNat ∨ (a.toNat = b.toNat ∧ jsStrLtChars as bs = true)) := by
  simp only [jsStrLtChars]
  by_cases h1 : a.toNat < b.toNat
  · simp [h1]
  · by_cases h2 : b.toNat < a.toNat
    · simp [h1, h2]; omega
    · have h3 : a.toNat = b.toNat := by omega
      simp [h1, h2, h3]

/-- Transitivity of the code-unit comparison. -/
theorem jsStrLtChars_trans : ∀ as bs cs, jsStrLtChars as bs = true →
    jsStrLtChars bs cs = true → jsStrLtChars as cs = true := by
  intro as
  induction as with
  | nil =>
    intro bs cs h1 h2
    cases bs with
    | nil => simp [jsStrLtChars] at h1
    | cons b bs =>
      cases cs with
      | nil => simp [jsStrLtChars] at h2
      | cons c cs => simp [jsStrLtChars]
  | cons a as ih =>
    intro bs cs h1 h2
    cases bs with
    | nil => simp [jsStrLtChars] at h1
    | cons b bs =>
      cases cs with
      | nil => simp [jsStrLtChars] at h2
      | cons c cs =>
        rw [jsStrLtChars_cons_iff] at h1 h2 ⊢
        rcases h1 with h1 | ⟨h1e, h1r⟩
        · rcases h2 with h2 | ⟨h2e, h2r⟩
          · left; omega
          · left; omega
        · rcases h2 with h2 | ⟨h2e, h2r⟩
          · left; omega
          · right; exact ⟨by omega, ih bs cs h1r h2r⟩

/-- A failed comparison means equality or the reversed comparison holds. -/
theorem jsStrLtChars_false_cases : ∀ as bs, jsStrLtChars as bs = false →
    as = bs ∨ jsStrLtChars bs as = true := by
  intro as
  induction as with
  | nil =>
    intro bs h
    cases bs with
    | nil => left; rfl
    | cons b bs => simp [jsStrLtChars] at h
  | cons a as ih =>
    intro bs h
    cases bs with
    | nil => right; simp [jsStrLtChars]
    | cons b bs =>
      have h' : ¬ (jsStrLtChars (a :: as) (b :: bs) = true) := by simp [h]
      rw [jsStrLtChars_cons_iff] at h'
      push_neg at h'
      by_cases hab : a.toNat = b.toNat
      · have heq : a = b := char_eq_of_toNat_eq hab
        subst heq
        have hr : jsStrLtChars as bs = false := by
          rcases Bool.eq_false_or_eq_true (jsStrLtChars as bs) with h0 | h0
          · exact absurd h0 (h'.2 hab)
          · exact h0
        rcases ih bs hr with h1 | h1
        · left; rw [h1]
        · right; rw [jsStrLtChars_cons_iff]; right; exact ⟨rfl, h1⟩
      · have hba : b.toNat < a.toNat := by
          have := h'.1; omega
        right; rw [jsStrLtChars_cons_iff]; left; exact hba

/-- Irreflexivity of the code-unit comparison. -/
theorem jsStrLtChars_irrefl : ∀ as, jsStrLtChars as as = false := by
  intro as
  induction as with
  | nil => rfl
  | cons a as ih => simp [jsStrLtChars, ih]

/-- Asymmetry of the code-unit comparison. -/
theorem jsStrLtChars_asymm : ∀ as bs, jsStrLtChars as bs = true →
    jsStrLtChars bs as = false := by
  intro as bs h
  rcases Bool.eq_false_or_eq_true (jsStrLtChars bs as) with h0 | h0
  · exfalso
    have h2 := jsStrLtChars_trans as bs as h h0
    rw [jsStrLtChars_irrefl] at h2
    exact Bool.noConfusion h2
  · exact h0

/-- `keyLE` is reflexive. -/
theorem keyLE_refl (r : FilingRec) : keyLE r r := jsStrLtChars_irrefl _

/-- `keyLE` is transitive. -/
theorem keyLE_trans {a b c : FilingRec} (h1 : keyLE a b) (h2 : keyLE b c) :
    keyLE a c := by
  unfold keyLE jsStrLt at h1 h2 ⊢
  rcases Bool.eq_false_or_eq_true
    (jsStrLtChars (amendmentSortKey c).data (amendmentSortKey a).data) with h0 | h0
  · exfalso
    rcases jsStrLtChars_false_cases _ _ h1 with he | hlt
    · rw [← he] at h0
      rw [h0] at h2
      simp at h2
    · have h3 := jsStrLtChars_trans _ _ _ h0 hlt
      rw [h3] at h2
      simp at h2
  · exact h0

/-- Inserting permutes to a `cons`. -/
theorem insertByKey_perm (r : FilingRec) (l : List FilingRec) :
    (insertByKey r l).Perm (r :: l) := by
  induction l with
  | nil => exact List.Perm.refl _
  | cons s rest ih =>
    unfold insertByKey
    split
    · exact List.Perm.refl _
    · exact (List.Perm.cons s ih).trans (List.Perm.swap r s rest)

/-- The amendment sort permutes its input. -/
theorem sortByAmendmentKey_perm (g : List FilingRec) :
    (sortByAmendmentKey g).Perm g := by
  suffices h : ∀ acc, (g.foldl (fun acc r => insertByKey r acc) acc).Perm (g ++ acc) by
    simpa using h []
  induction g with
  | nil => intro acc; simp
  | cons r rest ih =>
    intro acc
    simp only [List.foldl_cons, List.cons_append]
    have h1 := ih (insertByKey r acc)
    have h2 : (rest ++ insertByKey r acc).Perm (rest ++ r :: acc) :=
      List.Perm.append_left rest (insertByKey_perm r acc)
    have h3 : (rest ++ r :: acc).Perm (r :: (rest ++ acc)) :=
      List.perm_middle
    exact (h1.trans h2).trans h3

/-- Inserting preserves sortedness under `keyLE`. -/
theorem insertByKey_sorted (r : FilingRec) (l : List FilingRec)
    (h : l.Pairwise keyLE) : (insertByKey r l).Pairwise keyLE := by
  induction l with
  | nil => simp [insertByKey]
  | cons s rest ih =>
    rcases List.pairwise_cons.mp h with ⟨hs, hrest⟩
    unfold insertByKey
    split
    case isTrue hlt =>
      refine List.pairwise_cons.mpr ⟨?_, h⟩
      intro y hy
      have hrs : keyLE r s := jsStrLtChars_asymm _ _ hlt
      rcases List.mem_cons.mp hy with rfl | hy2
      · exact hrs
      · exact keyLE_trans hrs (hs _ hy2)
    case isFalse hnlt =>
      refine List.pairwise_cons.mpr ⟨?_, ih hrest⟩
      intro y hy
      rcases List.mem_cons.mp ((insertByKey_perm r rest).mem_iff.mp hy) with rfl | hy2
      · exact Bool.eq_false_iff.mpr hnlt
      · exact hs _ hy2

/-- The amendment sort yields a `keyLE`-sorted list. -/
theorem sortByAmendmentKey_sorted (g : List FilingRec) :
    (sortByAmendmentKey g).Pairwise keyLE := by
  suffices h : ∀ acc, acc.Pairwise keyLE →
      (g.foldl (fun acc r => insertByKey r acc) acc).Pairwise keyLE by
    exact h [] List.Pairwise.nil
  induction g with
  | nil => intro acc hacc; simpa using hacc
  | cons r rest ih =>
    intro acc hacc
    simp only [List.foldl_cons]
    exact ih _ (insertByKey_sorted r acc hacc)

/-- The last element, when present, is a member. -/
theorem getLast?_mem : ∀ (l : List FilingRec) (y : FilingRec),
    l.getLast? = some y → y ∈ l := by
  intro l
  induction l with
  | nil => intro y hy; simp at hy
  | cons a rest ih =>
    intro y hy
    cases rest with
    | nil =>
      simp at hy
      simp [hy]
    | cons b t =>
      rw [List.getLast?_cons_cons] at hy
      exact List.mem_cons_of_mem a (ih y hy)

/-- In a `keyLE`-sorted list, every member compares no later than the last
element. -/
theorem pairwise_keyLE_getLast :
    ∀ (l : List FilingRec), l.Pairwise keyLE → ∀ y, l.getLast? = some y →
      ∀ x ∈ l, keyLE x y := by
  intro l
  induction l with
  | nil => intro _ y hy; simp at hy
  | cons a rest ih =>
    intro h y hy x hx
    cases rest with
    | nil =>
      simp at hy hx
      subst hy
      subst hx
      exact keyLE_refl x
    | cons b t =>
      rw [List.getLast?_cons_cons] at hy
      rcases List.pairwise_cons.mp h with ⟨ha, hrest⟩
      rcases List.mem_cons.mp hx with rfl | hx2
      · exact ha y (getLast?_mem _ y hy)
      · exact ih hrest y hy x hx2

/-- C4 counterexample: in the two-record group {c4RecA, c4RecB}, c4RecB is
strictly later under the PAIR (report date, external id) order — its report
date `2020-11X` extends `2020-11` — so the claim predicts c4RecB as
canonical; the code keeps c4RecA, because the concatenated keys compare
`2020-11_b` > `2020-11X_a` (`_` is 0x5F, `X` is 0x58). -/
theorem c4_pair_sort_refuted :
    (processAmendmentGroup [c4RecA, c4RecB]).map (fun p => p.1.base) = some c4RecA ∧
    c4RecA ≠ c4RecB ∧ specPairLT c4RecA c4RecB := by
  refine ⟨?_, ?_, ?_⟩
  · decide
  · decide
  · left; decide

/-- C4 (amended): for a group of at least two parseable versions in which
more than one record declares an amendment type, the merge keeps as canonical
the record that is last under the ascending sort by the CONCATENATED string
`reportDate ++ "_" ++ externalId` (which agrees with the pair order whenever
all report dates have equal length), attaches every other version as a
`previousVersions` entry carrying only external id, report date and directory
URL, deletes those superseded records, and `previousVersions` has length
group size minus one. -/
theorem c4_amended_merge (g : List FilingRec)
    (hdecl : 1 < (g.filter (fun r => r.amendment_type != "")).length)
    (hlen : 2 ≤ g.length) :
    ∃ m olds, processAmendmentGroup g = some (m, olds) ∧
      m.previousVersions.length = g.length - 1 ∧
      olds.length = g.length - 1 ∧
      m.base ∈ g ∧
      (∀ r ∈ g, keyLE r m.base) ∧
      m.previousVersions = olds.map (fun f => ⟨f.externalId, f.report_date, f.directoryUrl⟩) ∧
      (∀ r ∈ g, r = m.base ∨
        (⟨r.externalId, r.report_date, r.directoryUrl⟩ : PrevVersion) ∈ m.previousVersions) := by
  have hany : g.any (fun r => r.amendment_type != "") = true := by
    rcases List.exists_mem_of_length_pos
      (by omega : 0 < (g.filter (fun r => r.amendment_type != "")).length) with ⟨x, hx⟩
    rcases List.mem_filter.mp hx with ⟨hxg, hxp⟩
    exact List.any_eq_true.mpr ⟨x, hxg, hxp⟩
  have hperm := sortByAmendmentKey_perm g
  have hlength : (sortByAmendmentKey g).length = g.length := hperm.length_eq
  have hne : sortByAmendmentKey g ≠ [] := by
    intro hnil
    rw [hnil] at hlength
    simp at hlength
    omega
  obtain ⟨c, hc⟩ : ∃ c, (sortByAmendmentKey g).getLast? = some c := by
    cases hgl : (sortByAmendmentKey g).getLast? with
    | none => exact absurd (List.getLast?_eq_none_iff.mp hgl) hne
    | some c => exact ⟨c, rfl⟩
  refine ⟨⟨c, ((sortByAmendmentKey g).dropLast).map
      (fun f => ⟨f.externalId, f.report_date, f.directoryUrl⟩)⟩,
    (sortByAmendmentKey g).dropLast, ?_, ?_, ?_, ?_, ?_, rfl, ?_⟩
  · unfold processAmendmentGroup
    rw [hany]
    simp only [Bool.not_true, Bool.false_eq_true, if_false]
    rw [if_neg (by omega)]
    rw [hc]
  · simp only [List.length_map, List.length_dropLast, hlength]
  · simp only [List.length_dropLast, hlength]
  · exact hperm.mem_iff.mp (getLast?_mem _ c hc)
  · intro r hr
    exact pairwise_keyLE_getLast _ (sortByAmendmentKey_sorted g) c hc r (hperm.mem_iff.mpr hr)
  · intro r hr
    have hrs : r ∈ sortByAmendmentKey g := hperm.mem_iff.mpr hr
    have hdecomp : (sortByAmendmentKey g).dropLast ++ [c] = sortByAmendmentKey g := by
      have hgetlast := List.getLast?_eq_getLast (sortByAmendmentKey g) hne
      rw [hgetlast] at hc
      have hceq : (sortByAmendmentKey g).getLast hne = c := by
        injection hc
      rw [← hceq]
      exact List.dropLast_append_getLast hne
    rw [← hdecomp] at hrs
    rcases List.mem_append.mp hrs with hold | hlast
    · right
      exact List.mem_map.mpr ⟨r, hold, rfl⟩
    · left
      simpa using hlast

/-- C4 witness: the amended theorem applied to the concrete two-record
group. -/
theorem c4_amended_merge_witness :
    (1 < (([c4RecA, c4RecB]).filter (fun r => r.amendment_type != "")).length) ∧
    ∃ m olds, processAmendmentGroup [c4RecA, c4RecB] = some (m, olds) ∧
      m.previousVersions.length = [c4RecA, c4RecB].length - 1 ∧
      olds.length = [c4RecA, c4RecB].length - 1 ∧
      m.base ∈ [c4RecA, c4RecB] ∧
      (∀ r ∈ [c4RecA, c4RecB], keyLE r m.base) ∧
      m.previousVersions = olds.map (fun f => ⟨f.externalId, f.report_date, f.directoryUrl⟩) ∧
      (∀ r ∈ [c4RecA, c4RecB], r = m.base ∨
        (⟨r.externalId, r.report_date, r.directoryUrl⟩ : PrevVersion) ∈ m.previousVersions) :=
  ⟨by decide, c4_amended_merge [c4RecA, c4RecB] (by decide) (by decide)⟩

/-! ## Claim theorems: C5 and C6 (with supporting lemmas) -/

/-- A slice of length `L` starting at `ci` followed by the rest of the list
recovers the suffix from `ci`. -/
theorem jsSlice_append_drop (l : List Char) (ci L : Int)
    (hci : 0 ≤ ci) (hL : 0 ≤ L) (hlt : ci < (l.length : Int)) :
    jsSlice l ci (ci + L) ++ l.drop (ci + L).toNat = l.drop ci.toNat := by
  unfold jsSlice jsSliceIdx
  have ha : ¬ (ci < 0) := by omega
  have hb : ¬ (ci + L < 0) := by omega
  simp only [ha, hb, if_false]
  have hciN : ci.toNat < l.length := by omega
  have hmin : min ci.toNat l.length = ci.toNat := by omega
  rw [hmin]
  by_cases hc : (ci + L).toNat ≤ l.length
  · have hmin2 : min (ci + L).toNat l.length = (ci + L).toNat := by omega
    rw [hmin2]
    have ht : (ci + L).toNat = ci.toNat + L.toNat := by omega
    rw [ht]
    have hsub : ci.toNat + L.toNat - ci.toNat = L.toNat := by omega
    rw [hsub]
    rw [← List.drop_drop]
    exact List.take_append_drop _ _
  · have hmin2 : min (ci + L).toNat l.length = l.length := by omega
    rw [hmin2]
    have hdropnil : l.drop (ci + L).toNat = [] := by
      apply List.drop_eq_nil_of_le
      omega
    rw [hdropnil, List.append_nil]
    have hlen : (l.drop ci.toNat).length = l.length - ci.toNat := List.length_drop _ _
    rw [List.take_of_length_le (by omega)]

/-- A slice over a window of width `L` has at most `L` characters. -/
theorem jsSlice_length_le (l : List Char) (ci L : Int)
    (hci : 0 ≤ ci) (hL : 0 ≤ L) :
    (jsSlice l ci (ci + L)).length ≤ L.toNat := by
  unfold jsSlice jsSliceIdx
  have ha : ¬ (ci < 0) := by omega
  have hb : ¬ (ci + L < 0) := by omega
  simp only [ha, hb, if_false]
  have h1 := List.length_take (min (ci + L).toNat l.length - min ci.toNat l.length)
    (l.drop (min ci.toNat l.length))
  rw [List.length_drop] at h1
  omega

/-- Once `actualLimit` is non-positive, the loop can never advance past the
end of the record, so it exhausts any fuel. -/
theorem splitLoop_none_of_nonpos (mid : List Char) (origLimit decStep : Int)
    (entryStr : List Char) (hdec : 0 ≤ decStep) :
    ∀ fuel ci L pi, L ≤ 0 → ci < (entryStr.length : Int) →
      splitLoop mid origLimit decStep entryStr fuel ci L pi = none := by
  intro fuel
  induction fuel with
  | zero => intro ci L pi hL hci; rfl
  | succ fuel ih =>
    intro ci L pi hL hci
    unfold splitLoop
    rw [if_pos hci]
    by_cases henv : (envLen mid pi (jsSlice entryStr ci (ci + L)) : Int) > origLimit
    · rw [if_pos henv]
      exact ih ci (L - decStep) pi (by omega) hci
    · rw [if_neg henv]
      rw [ih (ci + L) L (pi + 1) hL (by omega)]

/-- Any successful run of the split loop emits fragments that all carry the
given correlation id, consecutive sequence indices starting at `pi`, and
payloads that concatenate (in emission order) to the suffix of the record
from the current index. -/
theorem splitLoop_some_props (mid : List Char) (origLimit decStep : Int)
    (entryStr : List Char) (hdec : 0 < decStep) :
    ∀ fuel ci L pi parts, 0 ≤ ci →
      splitLoop mid origLimit decStep entryStr fuel ci L pi = some parts →
      ((parts.map (fun p => p.partData)).flatten = entryStr.drop ci.toNat ∧
       parts.map (fun p => p.partIndex) = List.range' pi parts.length ∧
       ∀ p ∈ parts, p.multipartId = mid) := by
  intro fuel
  induction fuel with
  | zero => intro ci L pi parts hci h; exact absurd h (by simp [splitLoop])
  | succ fuel ih =>
    intro ci L pi parts hci h
    unfold splitLoop at h
    by_cases hlt : ci < (entryStr.length : Int)
    · rw [if_pos hlt] at h
      by_cases henv : (envLen mid pi (jsSlice entryStr ci (ci + L)) : Int) > origLimit
      · rw [if_pos henv] at h
        exact ih ci (L - decStep) pi parts hci h
      · rw [if_neg henv] at h
        cases hrec : splitLoop mid origLimit decStep entryStr fuel (ci + L) L (pi + 1) with
        | none => rw [hrec] at h; exact absurd h (by simp)
        | some rest =>
          rw [hrec] at h
          have hL : 1 ≤ L := by
            by_contra hL0
            rw [splitLoop_none_of_nonpos mid origLimit decStep entryStr (by omega)
              fuel (ci + L) L (pi + 1) (by omega) (by omega)] at hrec
            exact Option.noConfusion hrec
          have hrecprops := ih (ci + L) L (pi + 1) rest (by omega) hrec
          injection h with h
          subst h
          refine ⟨?_, ?_, ?_⟩
          · simp only [List.map_cons, List.flatten_cons]
            rw [hrecprops.1]
            exact jsSlice_append_drop entryStr ci L hci (by omega) hlt
          · simp only [List.map_cons, List.length_cons]
            rw [hrecprops.2.1]
            rw [List.range'_succ]
          · intro p hp
            rcases List.mem_cons.mp hp with rfl | hp2
            · rfl
            · exact hrecprops.2.2 p hp2
    · rw [if_neg hlt] at h
      injection h with h
      subst h
      refine ⟨?_, ?_, ?_⟩
      · simp only [List.map_nil, List.flatten_nil]
        rw [List.drop_eq_nil_of_le (by omega)]
      · simp
      · intro p hp; exact absurd hp (List.not_mem_nil p)

/-- Inserting a fragment whose index exceeds every index in the accumulator
appends it at the end. -/
theorem insertPartByIndex_append (p : ChunkPart) :
    ∀ acc, (∀ q ∈ acc, q.partIndex < p.partIndex) →
      insertPartByIndex p acc = acc ++ [p] := by
  intro acc
  induction acc with
  | nil => intro _; rfl
  | cons q rest ih =>
    intro hall
    unfold insertPartByIndex
    rw [if_neg (by have := hall q (List.mem_cons_self q rest); omega)]
    rw [ih (fun r hr => hall r (List.mem_cons_of_mem q hr))]
    rfl

/-- Sorting a list whose indices already increase strictly is the
identity. -/
theorem sortPartsByIndex_sorted_id :
    ∀ (l acc : List ChunkPart),
      (∀ q ∈ acc, ∀ r ∈ l, q.partIndex < r.partIndex) →
      l.Pairwise (fun a b => a.partIndex < b.partIndex) →
      l.foldl (fun acc p => insertPartByIndex p acc) acc = acc ++ l := by
  intro l
  induction l with
  | nil => intro acc _ _; simp
  | cons p rest ih =>
    intro acc hacc hpair
    simp only [List.foldl_cons]
    rw [insertPartByIndex_append p acc
      (fun q hq => hacc q hq p (List.mem_cons_self p rest))]
    rcases List.pairwise_cons.mp hpair with ⟨hp, hrest⟩
    rw [ih (acc ++ [p]) ?cond hrest]
    · simp
    case cond =>
      intro q hq r hr
      rcases List.mem_append.mp hq with hq2 | hq2
      · exact hacc q hq2 r (List.mem_cons_of_mem p hr)
      · have hqp : q = p := by simpa using hq2
        subst hqp
        exact hp r hr

/-- Reassembly of fragments whose indices already increase strictly
concatenates the payloads in the given order. -/
theorem reassembleParts_of_sorted (parts : List ChunkPart)
    (h : parts.Pairwise (fun a b => a.partIndex < b.partIndex)) :
    reassembleParts parts = (parts.map (fun p => p.partData)).flatten := by
  unfold reassembleParts sortPartsByIndex
  rw [sortPartsByIndex_sorted_id parts []
    (by intro q hq; exact absurd hq (List.not_mem_nil q)) h]
  simp

/-- C5: whenever the writer splits an oversized serialized record into
fragments, the fragments share the correlation id, carry the zero-based
consecutive sequence indices, and reassembling them — sorting by sequence
index ascending and concatenating the payloads — restores the original
serialization byte for byte. -/
theorem c5_roundtrip (mid entryStr : List Char) (origLimit decStep : Int)
    (fuel : Nat) (parts : List ChunkPart)
    (hdec : 0 < decStep)
    (hbig : origLimit < (entryStr.length : Int))
    (hsplit : splitEntry mid origLimit decStep fuel entryStr = some parts) :
    (∀ p ∈ parts, p.multipartId = mid) ∧
    parts.map (fun p => p.partIndex) = List.range' 0 parts.length ∧
    reassembleParts parts = entryStr := by
  have hprops := splitLoop_some_props mid origLimit decStep entryStr hdec
    fuel 0 origLimit 0 parts (by omega) hsplit
  refine ⟨hprops.2.2, hprops.2.1, ?_⟩
  have hpair : parts.Pairwise (fun a b => a.partIndex < b.partIndex) := by
    have hr : List.Pairwise (· < ·) (List.range' 0 parts.length) :=
      List.pairwise_lt_range' _ _
    rw [← hprops.2.1] at hr
    exact (List.pairwise_map).mp hr
  rw [reassembleParts_of_sorted parts hpair]
  have hflat := hprops.1
  simpa using hflat

/-- C5 witness: the round-trip theorem applied to a concrete 120-character
record split under ceiling 100 with shrink step 3 (three fragments of 49, 49
and 22 characters). -/
theorem c5_roundtrip_witness :
    (0 : Int) < 3 ∧ (100 : Int) < (c5Str.length : Int) ∧
    splitEntry ['m'] 100 3 200 c5Str = some c5Parts ∧
    ((∀ p ∈ c5Parts, p.multipartId = ['m']) ∧
     c5Parts.map (fun p => p.partIndex) = List.range' 0 c5Parts.length ∧
     reassembleParts c5Parts = c5Str) :=
  ⟨by decide, by decide, by decide,
   c5_roundtrip ['m'] c5Str 100 3 200 c5Parts (by decide) (by decide) (by decide)⟩

/-- Every character costs at most 6 code units in a JSON string literal. -/
theorem jsonCharCost_le_six (c : Char) : jsonCharCost c ≤ 6 := by
  unfold jsonCharCost
  split
  · omega
  · split
    · split
      · omega
      · omega
    · split
      · omega
      · omega

/-- String-literal length bound: at most `2 + 6·length`. -/
theorem jsonStrLen_le (s : List Char) : jsonStrLen s ≤ 2 + 6 * s.length := by
  unfold jsonStrLen
  have h : (s.map jsonCharCost).sum ≤ 6 * s.length := by
    induction s with
    | nil => simp
    | cons c cs ih =>
      simp only [List.map_cons, List.sum_cons, List.length_cons]
      have := jsonCharCost_le_six c
      omega
  omega

/-- Digit-count bound for the fuelled digit counter. -/
theorem decLenAux_le : ∀ (fuel n k : Nat), n ≤ fuel → n < 10 ^ k → 1 ≤ k →
    decLenAux fuel n ≤ k := by
  intro fuel
  induction fuel with
  | zero => intro n k _ _ hk; simpa [decLenAux] using hk
  | succ fuel ih =>
    intro n k hn hpow hk
    unfold decLenAux
    split
    · omega
    · rename_i h10
      have hk2 : 2 ≤ k := by
        by_contra hk2
        have hk1 : k = 1 := by omega
        subst hk1
        simp at hpow
        omega
      have h1 : n / 10 ≤ fuel := by omega
      have h2 : n / 10 < 10 ^ (k - 1) := by
        have hsplit10 : 10 ^ k = 10 ^ (k - 1) * 10 := by
          rw [← pow_succ]
          congr 1
          omega
        rw [hsplit10] at hpow
        omega
      have := ih (n / 10) (k - 1) h1 h2 (by omega)
      omega

/-- `n < 10^k` gives at most `k` decimal digits. -/
theorem decLen_le (n k : Nat) (hpow : n < 10 ^ k) (hk : 1 ≤ k) : decLen n ≤ k :=
  decLenAux_le n n k (Nat.le_refl n) hpow hk

/-- Main invariant induction for the split loop at the source's constants
(ceiling 9,000,000, shrink step 1,000,000): from any reachable state the loop
finishes within the measure-bounded fuel and every emitted fragment's
envelope fits the ceiling. The JavaScript engine bound `length < 2^53` keeps
the `_partIndex` digit count small enough that the envelope always fits once
`actualLimit` has shrunk to 1,000,000, so `actualLimit` never reaches 0. -/
theorem splitLoop_terminates_aux (mid entryStr : List Char)
    (hmid : jsonStrLen mid = 38)
    (hjs : entryStr.length < 2 ^ 53) :
    ∀ fuel : Nat, ∀ ci L : Int, ∀ pi : Nat,
      0 ≤ ci →
      1000000 ≤ L → L ≤ 9000000 → L % 1000000 = 0 →
      (pi : Int) * 1000000 ≤ ci →
      entryStr.length - ci.toNat + L.toNat / 1000000 + 1 ≤ fuel →
      ∃ parts, splitLoop mid 9000000 1000000 entryStr fuel ci L pi = some parts ∧
        ∀ p ∈ parts, p.multipartId = mid ∧
          envLen mid p.partIndex p.partData ≤ 9000000 := by
  intro fuel
  induction fuel with
  | zero => intro ci L pi _ _ _ _ _ hfuel; omega
  | succ fuel ih =>
    intro ci L pi hci hL1 hL9 hLmod hpi hfuel
    by_cases hlt : ci < (entryStr.length : Int)
    · have hciN : ci.toNat < entryStr.length := by omega
      have hpibound : pi < 10 ^ 10 := by
        have h10 : (10 : Nat) ^ 10 = 10000000000 := by norm_num
        rw [h10]
        have h53 : (2 : Nat) ^ 53 = 9007199254740992 := by norm_num
        rw [h53] at hjs
        omega
      have hdl : decLen pi ≤ 10 := decLen_le pi 10 hpibound (by omega)
      by_cases henv :
          (envLen mid pi (jsSlice entryStr ci (ci + L)) : Int) > 9000000
      · have hL2 : 2000000 ≤ L := by
          by_contra hL2
          have hLv : L.toNat = 1000000 := by omega
          have hslice : (jsSlice entryStr ci (ci + L)).length ≤ 1000000 := by
            have := jsSlice_length_le entryStr ci L hci (by omega)
            omega
          have hjsl := jsonStrLen_le (jsSlice entryStr ci (ci + L))
          have hfit : envLen mid pi (jsSlice entryStr ci (ci + L)) ≤ 9000000 := by
            unfold envLen
            omega
          omega
        obtain ⟨parts, hparts, hgood⟩ := ih ci (L - 1000000) pi hci
          (by omega) (by omega) (by omega) hpi (by omega)
        refine ⟨parts, ?_, hgood⟩
        unfold splitLoop
        rw [if_pos hlt, if_pos henv]
        exact hparts
      · obtain ⟨rest, hrest, hgood⟩ := ih (ci + L) L (pi + 1) (by omega)
          hL1 hL9 hLmod (by push_cast; omega) (by omega)
        refine ⟨⟨mid, pi, jsSlice entryStr ci (ci + L)⟩ :: rest, ?_, ?_⟩
        · unfold splitLoop
          rw [if_pos hlt, if_neg henv, hrest]
        · intro p hp
          rcases List.mem_cons.mp hp with rfl | hp2
          · refine ⟨rfl, ?_⟩
            show envLen mid pi (jsSlice entryStr ci (ci + L)) ≤ 9000000
            omega
          · exact hgood p hp2
    · refine ⟨[], ?_, by intro p hp; exact absurd hp (List.not_mem_nil p)⟩
      unfold splitLoop
      rw [if_neg hlt]

/-- C6: for every completed record whose serialization exceeds the 9,000,000
ceiling (and fits a JavaScript string, whose length is below 2^53), the
chunk-splitting loop terminates — `entryStr.length + 20` iterations always
suffice — and every emitted fragment's serialized envelope (correlation id,
sequence index and payload slice included) has length at most the
ceiling. The correlation id is a 36-character UUID (escape-free in JSON). -/
theorem c6_split_terminates (mid entryStr : List Char)
    (hmidlen : mid.length = 36)
    (hmidcost : ∀ c ∈ mid, jsonCharCost c = 1)
    (hbig : 9000000 < entryStr.length)
    (hjs : entryStr.length < 2 ^ 53) :
    ∃ parts,
      splitEntry mid 9000000 1000000 (entryStr.length + 20) entryStr = some parts ∧
      ∀ p ∈ parts, p.multipartId = mid ∧
        envLen mid p.partIndex p.partData ≤ 9000000 := by
  have hsum : ∀ l : List Char, (∀ c ∈ l, jsonCharCost c = 1) →
      (l.map jsonCharCost).sum = l.length := by
    intro l
    induction l with
    | nil => intro _; simp
    | cons c cs ihl =>
      intro hall
      simp only [List.map_cons, List.sum_cons, List.length_cons]
      rw [hall c (List.mem_cons_self c cs),
        ihl (fun d hd => hall d (List.mem_cons_of_mem c hd))]
      omega
  have hmid : jsonStrLen mid = 38 := by
    unfold jsonStrLen
    rw [hsum mid hmidcost, hmidlen]
  exact splitLoop_terminates_aux mid entryStr hmid hjs (entryStr.length + 20)
    0 9000000 0 (by omega) (by omega) (by omega) (by omega) (by omega) (by omega)

/-- C6 witness: the termination theorem applied to a 9,000,001-character
record with a 36-character correlation id. -/
theorem c6_split_terminates_witness :
    (List.replicate 36 'a').length = 36 ∧
    (∀ c ∈ List.replicate 36 'a', jsonCharCost c = 1) ∧
    9000000 < (List.replicate 9000001 'a').length ∧
    (List.replicate 9000001 'a').length < 2 ^ 53 ∧
    ∃ parts,
      splitEntry (List.replicate 36 'a') 9000000 1000000
        ((List.replicate 9000001 'a').length + 20) (List.replicate 9000001 'a') =
        some parts ∧
      ∀ p ∈ parts, p.multipartId = List.replicate 36 'a' ∧
        envLen (List.replicate 36 'a') p.partIndex p.partData ≤ 9000000 :=
  ⟨by rw [List.length_replicate],
   by
     intro c hc
     have h := List.eq_of_mem_replicate hc
     subst h
     decide,
   by
     rw [List.length_replicate]
     omega,
   by
     rw [List.length_replicate]
     norm_num,
   c6_split_terminates (List.replicate 36 'a') (List.replicate 9000001 'a')
     (by rw [List.length_replicate])
     (by
       intro c hc
       have h := List.eq_of_mem_replicate hc
       subst h
       decide)
     (by
       rw [List.length_replicate]
       omega)
     (by
       rw [List.length_replicate]
       norm_num)⟩

/-! ## Claim theorems: C7 -/

/-- C7 counterexample: the fragment-reassembly pass does NOT log and
continue past a malformed item — one fragment-marked file whose JSON fails
to parse aborts the whole scan (the following well-formed item is never
reached), because `mergePartialFiles` calls `loadJson` without the
`ignoreJsonError` option. -/
theorem c7_fragment_pass_aborts :
    mergePartialFilesScan [("part-bad.json", c7BadFile), ("part-good.json", c7GoodFile)] =
      Except.error "JSON parse failure in part-bad.json" ∧
    mergePartialFilesScan [("part-good.json", c7GoodFile)] =
      Except.ok [("part-good.json", "m-1", 0)] := by
  constructor
  · rfl
  · rfl

/-- C7 (amended): only the amendment-deduplication pass, invoked with
`ignoreJsonError`, logs a per-item failure and continues — it collects
exactly the parseable items, in order, provided no item carries an exhibit
marker (which that pass throws on). The fragment-reassembly pass instead
aborts the whole run at the first fragment-marked item whose JSON fails to
parse. -/
theorem c7_amended_amendment_pass_continues
    (files : List (String × DatasetFile))
    (hex : ∀ f ∈ files, f.2.hasExhibitMarker = false) :
    mergeAmendmentScan true files =
      Except.ok (files.filterMap (fun p => p.2.parsed.map (fun d => (p.1, d)))) := by
  induction files with
  | nil => rfl
  | cons f rest ih =>
    obtain ⟨filepath, file⟩ := f
    have hexf : file.hasExhibitMarker = false :=
      hex _ (List.mem_cons_self _ rest)
    have hrest := ih (fun g hg => hex g (List.mem_cons_of_mem _ hg))
    unfold mergeAmendmentScan
    rw [hexf]
    simp only [Bool.false_eq_true, if_false]
    cases hp : file.parsed with
    | none =>
        simp only [if_pos rfl]
        rw [hrest]
        simp [List.filterMap_cons, hp]
    | some data =>
        rw [hrest]
        simp [List.filterMap_cons, hp]

/-- C7 witness: the amended theorem applied to a two-item batch whose first
item is malformed — the scan succeeds and still collects the second item. -/
theorem c7_amended_amendment_pass_continues_witness :
    (∀ f ∈ [("bad.json", c7BadFile), ("good.json", c7GoodFile)],
      f.2.hasExhibitMarker = false) ∧
    mergeAmendmentScan true [("bad.json", c7BadFile), ("good.json", c7GoodFile)] =
      Except.ok ([("bad.json", c7BadFile), ("good.json", c7GoodFile)].filterMap
        (fun p => p.2.parsed.map (fun d => (p.1, d)))) :=
  ⟨by decide,
   c7_amended_amendment_pass_continues
     [("bad.json", c7BadFile), ("good.json", c7GoodFile)] (by decide)⟩

/-- C9 witness: the amended theorem applied to a concrete one-row table with
a short lower-case CUSIP. -/
theorem c9_amended_cusip_shape_witness :
    extractHolding ⟨"ab12", "N", "C", "1", "1", "SH", "", "SOLE", "", "1", "0", "0"⟩ ∈
      extractHoldingsFromInfoTableXml
        [⟨"ab12", "N", "C", "1", "1", "SH", "", "SOLE", "", "1", "0", "0"⟩] ∧
    ((∃ row ∈ [(⟨"ab12", "N", "C", "1", "1", "SH", "", "SOLE", "", "1", "0", "0"⟩ : InfoTableRow)],
        extractHolding ⟨"ab12", "N", "C", "1", "1", "SH", "", "SOLE", "", "1", "0", "0"⟩ =
          extractHolding row ∧
        (extractHolding ⟨"ab12", "N", "C", "1", "1", "SH", "", "SOLE", "", "1", "0", "0"⟩).cusip.length =
          max 9 (jsTrim row.cusip).length) ∧
      ∀ c ∈ (extractHolding ⟨"ab12", "N", "C", "1", "1", "SH", "", "SOLE", "", "1", "0", "0"⟩).cusip.data,
        ¬('a' ≤ c ∧ c ≤ 'z')) :=
  ⟨by decide,
   c9_amended_cusip_shape
     [⟨"ab12", "N", "C", "1", "1", "SH", "", "SOLE", "", "1", "0", "0"⟩] _ (by decide)⟩

end Sec13f
